import Mathlib

/-!
Verification of the tracking/zone-analytics frontend of `flow_zone_counter`.

Shallow embedding of the React frontend code:
* `src/frontend/src/pages/Dashboard.jsx` — `prepareChartData`,
  `processAllImages`, `processImageForDetection`;
* `src/frontend/src/pages/ZoneDrawer.jsx` — `handleSaveZone`,
  `loadExistingZone`, the threshold input handler, `handleCanvasClick`,
  `getCanvasPoints`;
* `src/frontend/src/pages/CameraManager.jsx` — `handleMouseUp`;
* `src/frontend/src/services/api.js` — `getImageURL`.

JavaScript numbers appearing as people counts are nonnegative integers and
are modelled as `Nat`; pixel coordinates are modelled as `ℚ` (exact
arithmetic).  `Math.round(s / l)` on nonnegative integers `s` and positive
`l` rounds half up and equals `(2*s + l) / (2*l)` in integer division.
-/

namespace FlowZone

/-! ## Dashboard.jsx: time-series compression (`prepareChartData`) -/

/-- One element of `stats.time_series` as consumed by `prepareChartData`
(Dashboard.jsx lines 219-258): a timestamp (modelled as `Nat`) and the two
people counts. -/
structure TimeSeriesPoint where
  timestamp : Nat
  total_people : Nat
  people_in_zone : Nat
  deriving Repr, DecidableEq

/-- One output point of `prepareChartData`: `time` is the formatted
timestamp string (the code applies `format(new Date(t), 'HH:mm')`), the two
count fields are the chart values. -/
structure ChartPoint where
  time : String
  totalPeople : Nat
  inZone : Nat
  deriving Repr, DecidableEq

/-- JavaScript `Math.round (s / l)` for nonnegative integer `s` and
positive integer `l`: round half up, i.e. `⌊(2*s + l) / (2*l)⌋`. -/
def natRound (s l : Nat) : Nat := (2 * s + l) / (2 * l)

/-- The chunking loop of `prepareChartData`:
`for (let i = 0; i < len; i += chunkSize) chunk = slice(i, i + chunkSize)`.
Successive contiguous chunks of `c` elements; the final chunk holds
whatever remains.  (`c = 0` cannot arise: the loop runs only when
`len > 50`, giving `chunkSize ≥ 2`; the guard here is for termination.) -/
def chunksOf (c : Nat) (xs : List α) : List (List α) :=
  if h : xs.isEmpty || c == 0 then [] else
    xs.take c :: chunksOf c (xs.drop c)
termination_by xs.length
decreasing_by
  simp only [Bool.or_eq_true, List.isEmpty_iff, beq_iff_eq, not_or] at h
  have hx : xs.length ≠ 0 := fun hl => h.1 (List.eq_nil_of_length_eq_zero hl)
  simp [List.length_drop]
  omega

/-- Aggregation of one chunk in `prepareChartData`: the chunk's first
timestamp (formatted by `fmt`) together with the rounded arithmetic means
of `total_people` and `people_in_zone` over the chunk. -/
def aggPoint (fmt : Nat → String) (chunk : List TimeSeriesPoint) : ChartPoint :=
  { time := fmt ((chunk.headD ⟨0, 0, 0⟩).timestamp)
    totalPeople := natRound (chunk.map (·.total_people)).sum chunk.length
    inZone := natRound (chunk.map (·.people_in_zone)).sum chunk.length }

/-- `const chunkSize = Math.ceil(timeSeries.length / maxPoints)` with
`maxPoints = 50`; on naturals `Math.ceil(len / 50) = (len + 49) / 50`. -/
def chunkSize (len : Nat) : Nat := (len + 49) / 50

/-- `prepareChartData` (Dashboard.jsx lines 219-258), parameterized by the
timestamp formatter `fmt` (the code's `t ↦ format(new Date(t), 'HH:mm')`,
an external pure function).  Empty input returns `[]`; at most 50 points
are mapped through unchanged; longer series are chunked with
`chunkSize ts.length` and each chunk is replaced by its `aggPoint`. -/
def prepareChartData (fmt : Nat → String) (ts : List TimeSeriesPoint) :
    List ChartPoint :=
  if ts.length = 0 then []
  else if ts.length ≤ 50 then
    ts.map (fun p => ⟨fmt p.timestamp, p.total_people, p.people_in_zone⟩)
  else
    (chunksOf (chunkSize ts.length) ts).map (aggPoint fmt)

theorem chunksOf_nil (c : Nat) : chunksOf c ([] : List α) = [] := by
  rw [chunksOf]; simp

theorem chunksOf_cons (c : Nat) (hc : 0 < c) (xs : List α) (hx : xs ≠ []) :
    chunksOf c xs = xs.take c :: chunksOf c (xs.drop c) := by
  rw [chunksOf]
  have : ¬(xs.isEmpty || c == 0) = true := by
    simp [List.isEmpty_iff, hx]
    omega
  simp [this]

theorem chunksOf_flatten (c : Nat) (hc : 0 < c) (xs : List α) :
    (chunksOf c xs).flatten = xs := by
  have key : ∀ n (ys : List α), ys.length ≤ n → (chunksOf c ys).flatten = ys := by
    intro n
    induction n with
    | zero =>
      intro ys hy
      have : ys = [] := List.eq_nil_of_length_eq_zero (Nat.le_zero.mp hy)
      subst this
      simp [chunksOf_nil]
    | succ n ih =>
      intro ys hy
      by_cases hys : ys = []
      · subst hys; simp [chunksOf_nil]
      · rw [chunksOf_cons c hc ys hys]
        have hlen : (ys.drop c).length ≤ n := by
          have h1 : 0 < ys.length := List.length_pos.mpr hys
          simp [List.length_drop]
          omega
        simp [List.flatten, ih (ys.drop c) hlen]
  exact key xs.length xs le_rfl

theorem chunksOf_length_le (c k : Nat) (hc : 0 < c) (xs : List α)
    (h : xs.length ≤ k * c) : (chunksOf c xs).length ≤ k := by
  induction k generalizing xs with
  | zero =>
    have : xs = [] := by
      have := h; simp at this
      exact List.eq_nil_of_length_eq_zero (by omega)
    subst this
    simp [chunksOf_nil]
  | succ k ih =>
    by_cases hys : xs = []
    · subst hys; simp [chunksOf_nil]
    · rw [chunksOf_cons c hc xs hys]
      have hlen : (xs.drop c).length ≤ k * c := by
        have h' : xs.length ≤ k * c + c := by
          have he : (k + 1) * c = k * c + c := by ring
          omega
        simp [List.length_drop]
        omega
      simpa using Nat.succ_le_succ (ih (xs.drop c) hlen)

theorem chunksOf_mem_bounds (c : Nat) (hc : 0 < c) (xs : List α) :
    ∀ ch ∈ chunksOf c xs, ch ≠ [] ∧ ch.length ≤ c := by
  have key : ∀ n (ys : List α), ys.length ≤ n →
      ∀ ch ∈ chunksOf c ys, ch ≠ [] ∧ ch.length ≤ c := by
    intro n
    induction n with
    | zero =>
      intro ys hy ch hch
      have : ys = [] := List.eq_nil_of_length_eq_zero (Nat.le_zero.mp hy)
      subst this
      simp [chunksOf_nil] at hch
    | succ n ih =>
      intro ys hy ch hch
      by_cases hys : ys = []
      · subst hys; simp [chunksOf_nil] at hch
      · rw [chunksOf_cons c hc ys hys] at hch
        rcases List.mem_cons.mp hch with h | h
        · subst h
          constructor
          · have h1 : 0 < ys.length := List.length_pos.mpr hys
            have : 0 < (ys.take c).length := by
              simp [List.length_take]
              omega
            exact fun he => by simp [he] at this
          · simp [List.length_take]
        · have hlen : (ys.drop c).length ≤ n := by
            have h1 : 0 < ys.length := List.length_pos.mpr hys
            simp [List.length_drop]
            omega
          exact ih (ys.drop c) hlen ch h
  exact key xs.length xs le_rfl

theorem chunksOf_eq_nil_iff (c : Nat) (hc : 0 < c) (xs : List α) :
    chunksOf c xs = [] ↔ xs = [] := by
  constructor
  · intro h
    by_contra hx
    rw [chunksOf_cons c hc xs hx] at h
    exact List.cons_ne_nil _ _ h
  · intro h; subst h; exact chunksOf_nil c

theorem chunksOf_dropLast_length (c : Nat) (hc : 0 < c) (xs : List α) :
    ∀ ch ∈ (chunksOf c xs).dropLast, ch.length = c := by
  have key : ∀ n (ys : List α), ys.length ≤ n →
      ∀ ch ∈ (chunksOf c ys).dropLast, ch.length = c := by
    intro n
    induction n with
    | zero =>
      intro ys hy ch hch
      have : ys = [] := List.eq_nil_of_length_eq_zero (Nat.le_zero.mp hy)
      subst this
      simp [chunksOf_nil] at hch
    | succ n ih =>
      intro ys hy ch hch
      by_cases hys : ys = []
      · subst hys; simp [chunksOf_nil] at hch
      · rw [chunksOf_cons c hc ys hys] at hch
        by_cases hrest : chunksOf c (ys.drop c) = []
        · simp [hrest] at hch
        · rw [List.dropLast_cons_of_ne_nil hrest] at hch
          rcases List.mem_cons.mp hch with h | h
          · subst h
            have hdrop : ys.drop c ≠ [] :=
              fun hd => hrest (by rw [hd]; exact chunksOf_nil c)
            have : c < ys.length := by
              by_contra hle
              push_neg at hle
              exact hdrop (List.drop_eq_nil_of_le hle)
            simp [List.length_take]
            omega
          · have hlen : (ys.drop c).length ≤ n := by
              have h1 : 0 < ys.length := List.length_pos.mpr hys
              simp [List.length_drop]
              omega
            exact ih (ys.drop c) hlen ch h
  exact key xs.length xs le_rfl

theorem chunkSize_pos_and_bound (n : Nat) (h : 50 < n) :
    0 < chunkSize n ∧ n ≤ 50 * chunkSize n := by
  unfold chunkSize
  have hdm := Nat.div_add_mod (n + 49) 50
  have hrlt : (n + 49) % 50 < 50 := Nat.mod_lt _ (by norm_num)
  omega

/-- C2: for every input time series, `prepareChartData` returns at most 50
output points (in particular for a 120-point input). -/
theorem prepareChartData_length_le_fifty (fmt : Nat → String)
    (ts : List TimeSeriesPoint) : (prepareChartData fmt ts).length ≤ 50 := by
  unfold prepareChartData
  split_ifs with h0 h1
  · simp
  · simp only [List.length_map]
    exact h1
  · push_neg at h1
    obtain ⟨hcpos, hbound⟩ := chunkSize_pos_and_bound ts.length h1
    have : ts.length ≤ 50 * chunkSize ts.length := hbound
    simpa using chunksOf_length_le (chunkSize ts.length) 50 hcpos ts this

/-- C3: the time-series compression is deterministic — identical input
series (same points, same order) produce identical output lists. -/
theorem prepareChartData_deterministic (fmt : Nat → String)
    (ts₁ ts₂ : List TimeSeriesPoint) (h : ts₁ = ts₂) :
    prepareChartData fmt ts₁ = prepareChartData fmt ts₂ := by rw [h]

theorem prepareChartData_deterministic_witness :
    prepareChartData (fun _ => "") [⟨0, 1, 1⟩] =
      prepareChartData (fun _ => "") [⟨0, 1, 1⟩] :=
  prepareChartData_deterministic (fun _ => "") [⟨0, 1, 1⟩] [⟨0, 1, 1⟩] rfl

/-- C6: a series of at most 50 points is not compressed — one output point
per input point, same order, counts unchanged (only the timestamp is
formatted). -/
theorem prepareChartData_small_id (fmt : Nat → String)
    (ts : List TimeSeriesPoint) (h : ts.length ≤ 50) :
    prepareChartData fmt ts =
      ts.map (fun p => ⟨fmt p.timestamp, p.total_people, p.people_in_zone⟩) := by
  unfold prepareChartData
  rcases Nat.eq_zero_or_pos ts.length with h0 | h0
  · have : ts = [] := List.eq_nil_of_length_eq_zero h0
    subst this; rfl
  · rw [if_neg (by omega), if_pos h]

theorem prepareChartData_small_id_witness :
    ([⟨1, 2, 3⟩, ⟨4, 5, 6⟩] : List TimeSeriesPoint).length ≤ 50 ∧
    prepareChartData (fun _ => "t") [⟨1, 2, 3⟩, ⟨4, 5, 6⟩] =
      [⟨"t", 2, 3⟩, ⟨"t", 5, 6⟩] := by
  refine ⟨by decide, ?_⟩
  rw [prepareChartData_small_id (fun _ => "t") [⟨1, 2, 3⟩, ⟨4, 5, 6⟩] (by decide)]
  rfl

/-- A 51-point series, all counts zero: a length for which no partition
into equal chunks of `chunkSize 51 = 2` points exists. -/
def ts51 : List TimeSeriesPoint := List.replicate 51 ⟨0, 0, 0⟩

/-- C1 counterexample: for the 51-point series, the output of
`prepareChartData` is NOT produced by a partition of the input into
equal-size chunks of `chunkSize 51` points each — no such partition of a
51-element list into 2-element chunks exists at all. -/
theorem prepareChartData_equal_chunks_ce :
    50 < ts51.length ∧
    ¬ ∃ cs : List (List TimeSeriesPoint),
        cs.flatten = ts51 ∧
        (∀ ch ∈ cs, ch.length = chunkSize ts51.length) ∧
        prepareChartData (fun _ => "") ts51 = cs.map (aggPoint (fun _ => "")) := by
  constructor
  · simp [ts51]
  · rintro ⟨cs, hflat, hlen, -⟩
    have hts : ts51.length = 51 := by simp [ts51]
    have hcs : chunkSize ts51.length = 2 := by rw [hts]; rfl
    have hsum : (cs.map List.length).sum = (cs.map List.length).length • 2 := by
      refine List.sum_eq_card_nsmul _ 2 ?_
      intro x hx
      obtain ⟨ch, hch, hx⟩ := List.mem_map.mp hx
      rw [← hx, hlen ch hch, hcs]
    rw [List.length_map, smul_eq_mul] at hsum
    have h51 : (cs.flatten).length = 51 := by rw [hflat, hts]
    rw [List.length_flatten, hsum] at h51
    omega

/-- C1 (amended): for more than 50 points the output is obtained by
cutting the series chronologically into contiguous chunks of
`chunkSize N = ceil(N/50)` points — the final chunk keeping whatever
fewer points remain — and replacing each chunk by one `aggPoint` (first
timestamp of the chunk, rounded arithmetic means of the counts). -/
theorem prepareChartData_chunk_agg (fmt : Nat → String)
    (ts : List TimeSeriesPoint) (h : 50 < ts.length) :
    (chunksOf (chunkSize ts.length) ts).flatten = ts ∧
    (∀ ch ∈ chunksOf (chunkSize ts.length) ts,
        ch ≠ [] ∧ ch.length ≤ chunkSize ts.length) ∧
    (∀ ch ∈ (chunksOf (chunkSize ts.length) ts).dropLast,
        ch.length = chunkSize ts.length) ∧
    prepareChartData fmt ts =
      (chunksOf (chunkSize ts.length) ts).map (aggPoint fmt) := by
  obtain ⟨hcpos, -⟩ := chunkSize_pos_and_bound ts.length h
  refine ⟨chunksOf_flatten _ hcpos ts, chunksOf_mem_bounds _ hcpos ts,
    chunksOf_dropLast_length _ hcpos ts, ?_⟩
  unfold prepareChartData
  split_ifs with h0 h1
  · omega
  · omega
  · rfl

theorem prepareChartData_chunk_agg_witness :
    50 < ts51.length ∧
    ((chunksOf (chunkSize ts51.length) ts51).flatten = ts51 ∧
     (∀ ch ∈ chunksOf (chunkSize ts51.length) ts51,
         ch ≠ [] ∧ ch.length ≤ chunkSize ts51.length) ∧
     (∀ ch ∈ (chunksOf (chunkSize ts51.length) ts51).dropLast,
         ch.length = chunkSize ts51.length) ∧
     prepareChartData (fun _ => "") ts51 =
       (chunksOf (chunkSize ts51.length) ts51).map (aggPoint (fun _ => ""))) :=
  ⟨by simp [ts51], prepareChartData_chunk_agg (fun _ => "") ts51 (by simp [ts51])⟩

/-! ## ZoneDrawer.jsx: zone configuration -/

/-- A zone as returned by `zoneAPI.get` and kept in `existingZone`:
polygon vertices (image coordinates, exact rationals) and overlap
threshold. -/
structure SavedZone where
  points : List (ℚ × ℚ)
  threshold : ℚ
  deriving DecidableEq

/-- The ZoneDrawer component state touched by `handleSaveZone` and
`loadExistingZone`: the drawn polygon points, the threshold, the last
loaded zone, and the `isDrawing` / `loading` flags. -/
structure ZoneState where
  points : List (ℚ × ℚ)
  threshold : ℚ
  existingZone : Option SavedZone
  isDrawing : Bool
  loading : Bool
  deriving DecidableEq

/-- The payload of `zoneAPI.set` (ZoneDrawer.jsx lines 112-116). -/
structure SaveRequest where
  camera_id : Nat
  points : List (ℚ × ℚ)
  threshold : ℚ
  deriving DecidableEq

/-- `loadExistingZone` (ZoneDrawer.jsx lines 72-86): overwrite the local
zone state with the server response (`resp` models `zoneAPI.get`'s data,
`none` for a falsy response). -/
def loadExistingZone (resp : Option SavedZone) (s : ZoneState) : ZoneState :=
  match resp with
  | some z => { s with existingZone := some z, points := z.points,
                       threshold := z.threshold }
  | none => { s with existingZone := none, points := [] }

/-- `handleSaveZone` (ZoneDrawer.jsx lines 104-126).  With fewer than 3
points it alerts and returns: no `zoneAPI.set` request (`none`) and the
state untouched.  Otherwise it posts `{camera_id, points, threshold}`,
clears `isDrawing`, reloads the zone from the server (`resp`) and clears
`loading`. -/
def handleSaveZone (cameraId : Nat) (resp : Option SavedZone)
    (s : ZoneState) : ZoneState × Option SaveRequest :=
  if s.points.length < 3 then (s, none)
  else
    let req : SaveRequest := ⟨cameraId, s.points, s.threshold⟩
    let s1 := loadExistingZone resp { s with isDrawing := false }
    ({ s1 with loading := false }, some req)

/-- C4: invoked with fewer than 3 drawn points, `handleSaveZone` issues no
save request and leaves the whole zone state — points, threshold,
existingZone — unchanged. -/
theorem handleSaveZone_rejects_under_three (cameraId : Nat)
    (resp : Option SavedZone) (s : ZoneState) (h : s.points.length < 3) :
    handleSaveZone cameraId resp s = (s, none) := by
  simp [handleSaveZone, h]

theorem handleSaveZone_rejects_under_three_witness :
    (ZoneState.mk [(0, 0), (1, 1)] (3 / 10) none true false).points.length < 3 ∧
    handleSaveZone 1 none (ZoneState.mk [(0, 0), (1, 1)] (3 / 10) none true false) =
      (ZoneState.mk [(0, 0), (1, 1)] (3 / 10) none true false, none) :=
  ⟨by decide, handleSaveZone_rejects_under_three 1 none _ (by decide)⟩

/-- The threshold input's onChange handler (ZoneDrawer.jsx line 211):
`setThreshold(parseFloat(e.target.value) / 100)`; `v` is the numeric
value `parseFloat` returned for the entered text. -/
def setThresholdFromInput (v : ℚ) : ℚ := v / 100

/-- C5 counterexample: the handler performs no clamping, so the entered
value 200 (typable despite the input's `min`/`max` attributes) produces
threshold 2, outside `[0,1]`. -/
theorem setThresholdFromInput_out_of_range :
    setThresholdFromInput 200 = 2 ∧ ¬ setThresholdFromInput 200 ≤ 1 := by
  constructor <;> norm_num [setThresholdFromInput]

/-- C5 (amended): the computed threshold `parseFloat(value)/100` lies in
`[0,1]` exactly for entered values in `[0,100]`; the handler itself never
clamps. -/
theorem setThresholdFromInput_in_range (v : ℚ) (h0 : 0 ≤ v) (h1 : v ≤ 100) :
    0 ≤ setThresholdFromInput v ∧ setThresholdFromInput v ≤ 1 := by
  unfold setThresholdFromInput
  constructor
  · positivity
  · rw [div_le_one (by norm_num : (0 : ℚ) < 100)]
    exact h1

theorem setThresholdFromInput_in_range_witness :
    0 ≤ (30 : ℚ) ∧ (30 : ℚ) ≤ 100 ∧
    (0 ≤ setThresholdFromInput 30 ∧ setThresholdFromInput 30 ≤ 1) :=
  ⟨by norm_num, by norm_num,
    setThresholdFromInput_in_range 30 (by norm_num) (by norm_num)⟩

/-- Canvas / image dimensions (`dimensions` and `imageObj` in
ZoneDrawer.jsx). -/
structure Dims where
  width : ℚ
  height : ℚ
  deriving DecidableEq

/-- `handleCanvasClick` (ZoneDrawer.jsx lines 88-102): when drawing, the
pointer position is scaled from canvas to image coordinates
(`scale = imageObj / dimensions`) and appended to `points`. -/
def handleCanvasClick (img canvas : Dims) (isDrawing : Bool) (pos : ℚ × ℚ)
    (points : List (ℚ × ℚ)) : List (ℚ × ℚ) :=
  if !isDrawing then points
  else
    let scaleX := img.width / canvas.width
    let scaleY := img.height / canvas.height
    points ++ [(pos.1 * scaleX, pos.2 * scaleY)]

/-- `getCanvasPoints` (ZoneDrawer.jsx lines 150-157): stored image-space
points scaled back to canvas coordinates
(`scale = dimensions / imageObj`); `[]` while no image is loaded. -/
def getCanvasPoints (imageLoaded : Bool) (img canvas : Dims)
    (points : List (ℚ × ℚ)) : List (ℚ × ℚ) :=
  if !imageLoaded then []
  else
    let scaleX := canvas.width / img.width
    let scaleY := canvas.height / img.height
    points.map (fun p => (p.1 * scaleX, p.2 * scaleY))

/-- C8: coordinate scaling round-trips exactly over the rationals — the
image-space point stored by `handleCanvasClick` is mapped back by
`getCanvasPoints` to the original canvas position, for all positive
canvas and image dimensions. -/
theorem canvasPoint_roundTrip (img canvas : Dims) (pos : ℚ × ℚ)
    (points : List (ℚ × ℚ)) (hiw : 0 < img.width) (hih : 0 < img.height)
    (hcw : 0 < canvas.width) (hch : 0 < canvas.height) :
    getCanvasPoints true img canvas
        (handleCanvasClick img canvas true pos points) =
      getCanvasPoints true img canvas points ++ [pos] := by
  have hiw' : img.width ≠ 0 := ne_of_gt hiw
  have hih' : img.height ≠ 0 := ne_of_gt hih
  have hcw' : canvas.width ≠ 0 := ne_of_gt hcw
  have hch' : canvas.height ≠ 0 := ne_of_gt hch
  simp only [getCanvasPoints, handleCanvasClick, Bool.not_true,
    Bool.false_eq_true, if_false, List.map_append, List.map_cons, List.map_nil,
    List.append_cancel_left_eq, List.cons.injEq, and_true]
  apply Prod.ext
  · field_simp
  · field_simp

theorem canvasPoint_roundTrip_witness :
    (0 : ℚ) < 200 ∧ (0 : ℚ) < 100 ∧ (0 : ℚ) < 40 ∧ (0 : ℚ) < 20 ∧
    getCanvasPoints true ⟨200, 100⟩ ⟨40, 20⟩
        (handleCanvasClick ⟨200, 100⟩ ⟨40, 20⟩ true (3, 7) []) =
      getCanvasPoints true ⟨200, 100⟩ ⟨40, 20⟩ [] ++ [(3, 7)] :=
  ⟨by norm_num, by norm_num, by norm_num, by norm_num,
    canvasPoint_roundTrip ⟨200, 100⟩ ⟨40, 20⟩ (3, 7) []
      (by norm_num) (by norm_num) (by norm_num) (by norm_num)⟩

/-! ## CameraManager.jsx: annotation bounding boxes (`handleMouseUp`) -/

/-- `newBbox` as built by `handleMouseDown`/`handleMouseMove`: raw drag
corners in image coordinates, not yet normalized. -/
structure RawBox where
  x1 : ℚ
  y1 : ℚ
  x2 : ℚ
  y2 : ℚ
  deriving DecidableEq

/-- An entry of the `bboxes` list (CameraManager.jsx lines 583-591). -/
structure Bbox where
  id : Nat
  x1 : ℚ
  y1 : ℚ
  x2 : ℚ
  y2 : ℚ
  approved : Bool
  confidence : Option ℚ
  deriving DecidableEq

/-- `handleMouseUp` (CameraManager.jsx lines 573-598), restricted to its
effect on the `bboxes` list (the code additionally resets `isDrawing` and
`newBbox`).  A drag is committed only when `|x2-x1| > 10` and
`|y2-y1| > 10` (`minSize = 10`); the committed box is normalized with
`min`/`max`, gets `id = bboxes.length`, `approved = true`,
`confidence = null`. -/
def handleMouseUp (isDrawing imageLoaded : Bool) (newBbox : Option RawBox)
    (bboxes : List Bbox) : List Bbox :=
  if !isDrawing then bboxes
  else
    match newBbox with
    | none => bboxes
    | some nb =>
      if !imageLoaded then bboxes
      else
        let minSize : ℚ := 10
        let width := |nb.x2 - nb.x1|
        let height := |nb.y2 - nb.y1|
        if minSize < width ∧ minSize < height then
          bboxes ++ [{ id := bboxes.length,
                       x1 := min nb.x1 nb.x2, y1 := min nb.y1 nb.y2,
                       x2 := max nb.x1 nb.x2, y2 := max nb.y1 nb.y2,
                       approved := true, confidence := none }]
        else bboxes

theorem handleMouseUp_cases (isDrawing imageLoaded : Bool)
    (nb : Option RawBox) (bboxes : List Bbox) :
    handleMouseUp isDrawing imageLoaded nb bboxes = bboxes ∨
    ∃ rb : RawBox, nb = some rb ∧
      10 < |rb.x2 - rb.x1| ∧ 10 < |rb.y2 - rb.y1| ∧
      handleMouseUp isDrawing imageLoaded nb bboxes = bboxes ++
        [Bbox.mk bboxes.length (min rb.x1 rb.x2) (min rb.y1 rb.y2)
          (max rb.x1 rb.x2) (max rb.y1 rb.y2) true none] := by
  unfold handleMouseUp
  cases isDrawing
  · left; rfl
  · cases nb with
    | none => left; simp
    | some rb =>
      cases imageLoaded
      · left; simp
      · by_cases hsz : (10 : ℚ) < |rb.x2 - rb.x1| ∧ (10 : ℚ) < |rb.y2 - rb.y1|
        · right
          exact ⟨rb, rfl, hsz.1, hsz.2, by simp [hsz]⟩
        · left; simp [hsz]

/-- C9: every box `handleMouseUp` appends to the list is normalized and
non-degenerate (`x1 < x2`, `y1 < y2`, width and height strictly greater
than 10), and a drag whose width or height is at most 10 adds no box. -/
theorem handleMouseUp_committed_boxes (isDrawing imageLoaded : Bool)
    (nb : Option RawBox) (bboxes : List Bbox) :
    (∀ b : Bbox, handleMouseUp isDrawing imageLoaded nb bboxes = bboxes ++ [b] →
      b.x1 < b.x2 ∧ b.y1 < b.y2 ∧ 10 < b.x2 - b.x1 ∧ 10 < b.y2 - b.y1) ∧
    (∀ rb : RawBox, nb = some rb →
      (|rb.x2 - rb.x1| ≤ 10 ∨ |rb.y2 - rb.y1| ≤ 10) →
      handleMouseUp isDrawing imageLoaded nb bboxes = bboxes) := by
  have hself : ∀ (b : Bbox), bboxes ≠ bboxes ++ [b] := by
    intro b hb
    have := congrArg List.length hb
    simp at this
  rcases handleMouseUp_cases isDrawing imageLoaded nb bboxes with
    heq | ⟨rb, hnb, hw, hh, heq⟩
  · constructor
    · intro b hb
      rw [heq] at hb
      exact absurd hb (hself b)
    · intro _ _ _
      exact heq
  · constructor
    · intro b hb
      rw [heq] at hb
      have hbb : b = Bbox.mk bboxes.length (min rb.x1 rb.x2) (min rb.y1 rb.y2)
          (max rb.x1 rb.x2) (max rb.y1 rb.y2) true none := by
        have := List.append_cancel_left hb
        simpa using this.symm
      have hxne : rb.x1 ≠ rb.x2 := by
        intro he
        rw [he] at hw
        simp at hw
        linarith
      have hyne : rb.y1 ≠ rb.y2 := by
        intro he
        rw [he] at hh
        simp at hh
        linarith
      have hwx : max rb.x1 rb.x2 - min rb.x1 rb.x2 = |rb.x2 - rb.x1| := by
        rw [max_sub_min_eq_abs, abs_sub_comm]
      have hwy : max rb.y1 rb.y2 - min rb.y1 rb.y2 = |rb.y2 - rb.y1| := by
        rw [max_sub_min_eq_abs, abs_sub_comm]
      subst hbb
      exact ⟨min_lt_max.mpr hxne, min_lt_max.mpr hyne,
        by rw [show (Bbox.mk bboxes.length (min rb.x1 rb.x2) (min rb.y1 rb.y2)
            (max rb.x1 rb.x2) (max rb.y1 rb.y2) true none).x2 -
            (Bbox.mk bboxes.length (min rb.x1 rb.x2) (min rb.y1 rb.y2)
            (max rb.x1 rb.x2) (max rb.y1 rb.y2) true none).x1 =
            max rb.x1 rb.x2 - min rb.x1 rb.x2 from rfl, hwx]; exact hw,
        by rw [show (Bbox.mk bboxes.length (min rb.x1 rb.x2) (min rb.y1 rb.y2)
            (max rb.x1 rb.x2) (max rb.y1 rb.y2) true none).y2 -
            (Bbox.mk bboxes.length (min rb.x1 rb.x2) (min rb.y1 rb.y2)
            (max rb.x1 rb.x2) (max rb.y1 rb.y2) true none).y1 =
            max rb.y1 rb.y2 - min rb.y1 rb.y2 from rfl, hwy]; exact hh⟩
    · intro rb' hnb' hsmall
      rw [hnb'] at hnb
      injection hnb with hrb
      subst hrb
      rcases hsmall with hs | hs
      · linarith
      · linarith

theorem handleMouseUp_committed_boxes_witness :
    ((Bbox.mk 0 5 2 30 20 true none).x1 < (Bbox.mk 0 5 2 30 20 true none).x2 ∧
     (Bbox.mk 0 5 2 30 20 true none).y1 < (Bbox.mk 0 5 2 30 20 true none).y2 ∧
     10 < (Bbox.mk 0 5 2 30 20 true none).x2 - (Bbox.mk 0 5 2 30 20 true none).x1 ∧
     10 < (Bbox.mk 0 5 2 30 20 true none).y2 - (Bbox.mk 0 5 2 30 20 true none).y1) ∧
    handleMouseUp true true (some (RawBox.mk 0 0 8 5)) [] = [] :=
  ⟨(handleMouseUp_committed_boxes true true (some (RawBox.mk 30 20 5 2)) []).1
      (Bbox.mk 0 5 2 30 20 true none) (by norm_num [handleMouseUp]),
   (handleMouseUp_committed_boxes true true (some (RawBox.mk 0 0 8 5)) []).2
      (RawBox.mk 0 0 8 5) rfl (Or.inl (by norm_num))⟩

/-! ## api.js: `getImageURL` -/

/-- The literal `'cameras/'` (strings are modelled as `List Char`). -/
def camerasDir : List Char := "cameras/".toList

/-- The prefixing step of `getImageURL` (api.js lines 77-81):
`imagePath.startsWith('cameras/') ? imagePath : 'cameras/' + imagePath`. -/
def addCamerasDir (p : List Char) : List Char :=
  if camerasDir.isPrefixOf p then p else camerasDir ++ p

/-- `getImageURL` (api.js lines 77-81): `API_BASE_URL + '/' + path` where
`path` is the input with the `'cameras/'` prefixing rule applied; `base`
models `API_BASE_URL`. -/
def getImageURL (base p : List Char) : List Char :=
  base ++ '/' :: addCamerasDir p

theorem camerasDir_isPrefixOf_append (t : List Char) :
    camerasDir.isPrefixOf (camerasDir ++ t) = true := by
  rw [List.isPrefixOf_iff_prefix]
  exact List.prefix_append camerasDir t

/-- C10: `getImageURL` returns `API_BASE_URL + '/' + p` where `p` always
starts with `'cameras/'`; the input is used as-is when already prefixed
and prefixed otherwise, and the prefixing rule is idempotent. -/
theorem getImageURL_spec (base p : List Char) :
    getImageURL base p = base ++ '/' :: addCamerasDir p ∧
    camerasDir.isPrefixOf (addCamerasDir p) = true ∧
    (camerasDir.isPrefixOf p = true → addCamerasDir p = p) ∧
    (camerasDir.isPrefixOf p = false → addCamerasDir p = camerasDir ++ p) ∧
    addCamerasDir (addCamerasDir p) = addCamerasDir p := by
  refine ⟨rfl, ?_, ?_, ?_, ?_⟩
  · unfold addCamerasDir
    split_ifs with hp
    · exact hp
    · exact camerasDir_isPrefixOf_append p
  · intro hp
    simp [addCamerasDir, hp]
  · intro hp
    simp [addCamerasDir, hp]
  · unfold addCamerasDir
    by_cases hp : camerasDir.isPrefixOf p = true
    · simp [hp]
    · simp [hp, camerasDir_isPrefixOf_append p]

theorem getImageURL_spec_witness :
    camerasDir.isPrefixOf "img1.jpg".toList = false ∧
    camerasDir.isPrefixOf "cameras/a.jpg".toList = true ∧
    addCamerasDir "img1.jpg".toList = camerasDir ++ "img1.jpg".toList ∧
    addCamerasDir "cameras/a.jpg".toList = "cameras/a.jpg".toList :=
  ⟨by decide, by decide,
    (getImageURL_spec [] "img1.jpg".toList).2.2.2.1 (by decide),
    (getImageURL_spec [] "cameras/a.jpg".toList).2.2.1 (by decide)⟩

/-! ## Dashboard.jsx: sequential frame processing (`processAllImages`) -/

/-- `String(i).padStart(6, '0')`: pad the decimal representation on the
left with zeros to length 6 (longer representations are kept whole). -/
def padStart6 (s : String) : String :=
  String.mk (List.replicate (6 - s.length) '0') ++ s

/-- The labeled image name built in `processAllImages` (Dashboard.jsx
line 142): `${String(i).padStart(6, '0')}.jpg`. -/
def labeledImageName (i : Nat) : String := padStart6 (toString i) ++ ".jpg"

/-- One step of the request/response protocol of
`processImageForDetection` (Dashboard.jsx lines 94-102): a process-image
request is issued to the backend and later completes (success or caught
error — either way the `await` returns before the caller continues). -/
inductive ReqEvent where
  | issue (name : String)
  | complete (name : String)
  deriving DecidableEq, Repr

/-- The event trace of a sequence of awaited requests: each name is
issued and completed before the next is issued — the meaning of
`await processImageForDetection(imageName)` inside a sequential `for`
loop. -/
def awaitedTrace (names : List String) : List ReqEvent :=
  names.flatMap (fun n => [ReqEvent.issue n, ReqEvent.complete n])

/-- The names `processAllImages` (Dashboard.jsx lines 104-192) processes,
in program order: the first `for` loop runs `i = 0 .. labeledCount-1`
over `labeledImageName i`, the second runs over the unlabeled filenames
in the order the API returned them. -/
def processAllImagesNames (labeledCount : Nat)
    (unlabeledNames : List String) : List String :=
  (List.range labeledCount).map labeledImageName ++ unlabeledNames

/-- The full request trace of `processAllImages`: both loops `await` each
`processImageForDetection` call before the next iteration. -/
def processAllImagesTrace (labeledCount : Nat)
    (unlabeledNames : List String) : List ReqEvent :=
  awaitedTrace (processAllImagesNames labeledCount unlabeledNames)

/-- The names issued in a trace, in order. -/
def issuedNames (tr : List ReqEvent) : List String :=
  tr.filterMap (fun e => match e with
    | ReqEvent.issue n => some n
    | ReqEvent.complete _ => none)

/-- Number of requests issued in a trace. -/
def countIssued (tr : List ReqEvent) : Nat :=
  tr.countP (fun e => match e with
    | ReqEvent.issue _ => true
    | ReqEvent.complete _ => false)

/-- Number of requests completed in a trace. -/
def countCompleted (tr : List ReqEvent) : Nat :=
  tr.countP (fun e => match e with
    | ReqEvent.issue _ => false
    | ReqEvent.complete _ => true)

theorem issuedNames_awaitedTrace (names : List String) :
    issuedNames (awaitedTrace names) = names := by
  induction names with
  | nil => rfl
  | cons n ns ih =>
    simp only [awaitedTrace, List.flatMap_cons] at *
    simp [issuedNames, List.filterMap_append] at *
    exact ih

theorem awaitedTrace_inflight_le_one (names : List String) (k : Nat) :
    countIssued ((awaitedTrace names).take k) ≤
      countCompleted ((awaitedTrace names).take k) + 1 ∧
    countCompleted ((awaitedTrace names).take k) ≤
      countIssued ((awaitedTrace names).take k) := by
  induction names generalizing k with
  | nil => simp [awaitedTrace, countIssued, countCompleted]
  | cons n ns ih =>
    have hcons : awaitedTrace (n :: ns) =
        ReqEvent.issue n :: ReqEvent.complete n :: awaitedTrace ns := by
      simp [awaitedTrace]
    rw [hcons]
    match k with
    | 0 => simp [countIssued, countCompleted]
    | 1 => simp [countIssued, countCompleted, List.countP_cons]
    | Nat.succ (Nat.succ k) =>
      simp only [List.take_succ_cons]
      have := ih k
      simp only [countIssued, countCompleted, List.countP_cons] at *
      omega

/-- C7: `processAllImages` issues its frame-processing requests strictly
sequentially — the issued names are exactly the labeled images
`000000.jpg, 000001.jpg, …` in ascending index order followed by the
unlabeled images in API order, and in every prefix of the trace the
number of issued requests never exceeds the number of completed ones by
more than one: no two requests are ever in flight concurrently. -/
theorem processAllImages_sequential (labeledCount : Nat)
    (unlabeledNames : List String) :
    issuedNames (processAllImagesTrace labeledCount unlabeledNames) =
      (List.range labeledCount).map labeledImageName ++ unlabeledNames ∧
    (∀ k, countIssued ((processAllImagesTrace labeledCount unlabeledNames).take k) ≤
      countCompleted ((processAllImagesTrace labeledCount unlabeledNames).take k) + 1) ∧
    (∀ k, countCompleted ((processAllImagesTrace labeledCount unlabeledNames).take k) ≤
      countIssued ((processAllImagesTrace labeledCount unlabeledNames).take k)) :=
  ⟨issuedNames_awaitedTrace _,
   fun k => (awaitedTrace_inflight_le_one _ k).1,
   fun k => (awaitedTrace_inflight_le_one _ k).2⟩

end FlowZone
